import Mathlib

/-!
Verification development for the slog logging library.

The definitions below are a shallow embedding of the C++ sources:
`src/slog_logger.cpp`, `src/sink_file.cpp`, `src/sink_stdout.cpp`,
`include/slog/slog.hpp`, `include/slog/sink_none.hpp`.
Machine integers that stay small (sizes, counters bounded by their limits)
are modelled as `Nat`/`Int`; the on-disk state of a rotating file sink is
modelled as a map from generation index to file size.
-/

namespace Slog

/-- The `LogLevel` enum from `slog.hpp`: `Trace=0, Debug, Info, Warning,
Error, Off, Unknown = Off + 2`. -/
inductive LogLevel where
  | trace
  | debug
  | info
  | warning
  | error
  | off
  | unknown
  deriving DecidableEq, Repr

/-- The numeric value of a level, as produced by `static_cast<int>` on the
C++ enum (`Unknown = Off + 2 = 7`). -/
def LogLevel.toNat : LogLevel → Nat
  | .trace => 0
  | .debug => 1
  | .info => 2
  | .warning => 3
  | .error => 4
  | .off => 5
  | .unknown => 7

theorem LogLevel.toNat_inj : ∀ a b : LogLevel, a.toNat = b.toNat → a = b := by
  intro a b h
  cases a <;> cases b <;> simp_all [LogLevel.toNat]

/-! ## File sink: `SharedFileState`, `File::log` and `File::rotate_files`
(`src/sink_file.cpp`)

The on-disk files are modelled as `fs : Nat → Option Nat`, mapping a
generation index to the size of that file when it exists: index `0` is the
base path `P`, index `k ≥ 1` is `P.k`.  Only sizes matter for the claims,
so file contents are not tracked.  The field `rotations` counts the
invocations of `rotate_files`, i.e. the flush/close/reopen events on the
shared handle. -/

structure FileState where
  fs : Nat → Option Nat
  currentSize : Nat
  maxFileSize : Nat
  maxFiles : Nat
  rotations : Nat

/-- Pointwise update of the on-disk map (a file system write at one name). -/
def setF (fs : Nat → Option Nat) (j : Nat) (v : Option Nat) : Nat → Option Nat :=
  fun x => if x = j then v else fs x

@[simp] theorem setF_same (fs : Nat → Option Nat) (j : Nat) (v : Option Nat) :
    setF fs j v j = v := by
  simp [setF]

theorem setF_ne (fs : Nat → Option Nat) {x j : Nat} (v : Option Nat) (h : x ≠ j) :
    setF fs j v x = fs x := by
  simp [setF, h]

/-- One iteration of the rename loop in `File::rotate_files`: for index `i`,
if the file `P` (when `i = 1`) resp. `P.(i-1)` exists, rename it to `P.i`.
`fs::rename` removes the source and overwrites the target. -/
def renameStep (fs : Nat → Option Nat) (i : Nat) : Nat → Option Nat :=
  match fs (i - 1) with
  | some s => setF (setF fs i (some s)) (i - 1) none
  | none => fs

/-- The rename loop `for (size_t i = max_files; i > 0; --i)` of
`File::rotate_files`, processing indices from `k` down to `1`. -/
def renameLoop (fs : Nat → Option Nat) : Nat → (Nat → Option Nat)
  | 0 => fs
  | i + 1 => renameLoop (renameStep fs (i + 1)) i

/-- Behaviour of the rename loop when the topmost target slot `k` is free
(as arranged by the deletion step of `rotate_files`): indices above `k` are
untouched, each index `1 ≤ j ≤ k` receives the previous generation `j - 1`,
and the base slot `0` is vacated when `k ≥ 1`. -/
theorem renameLoop_spec (k : Nat) : ∀ fs : Nat → Option Nat, fs k = none →
    ((∀ j, k < j → renameLoop fs k j = fs j)
      ∧ (∀ j, 1 ≤ j → j ≤ k → renameLoop fs k j = fs (j - 1))
      ∧ (1 ≤ k → renameLoop fs k 0 = none)) := by
  induction k with
  | zero =>
    intro fs _
    exact ⟨fun j _ => rfl, fun j h1 h2 => by omega, fun h => by omega⟩
  | succ k ih =>
    intro fs h
    have hk1 : k + 1 - 1 = k := by omega
    cases hc : fs k with
    | some s =>
      have hstep : renameStep fs (k + 1) = setF (setF fs (k + 1) (some s)) k none := by
        simp [renameStep, hk1, hc]
      have hloop : renameLoop fs (k + 1) = renameLoop (setF (setF fs (k + 1) (some s)) k none) k := by
        simp [renameLoop, hstep]
      have hg : (setF (setF fs (k + 1) (some s)) k none) k = none := setF_same _ _ _
      obtain ⟨A, B, C⟩ := ih _ hg
      refine ⟨?_, ?_, ?_⟩
      · intro j hj
        rw [hloop, A j (by omega), setF_ne _ _ (by omega), setF_ne _ _ (by omega)]
      · intro j h1 h2
        rcases Nat.lt_or_ge j (k + 1) with hj | hj
        · rw [hloop, B j h1 (by omega), setF_ne _ _ (by omega), setF_ne _ _ (by omega)]
        · have hj' : j = k + 1 := by omega
          subst hj'
          rw [hloop, A (k + 1) (by omega), setF_ne _ _ (by omega), setF_same, hk1, hc]
      · intro _
        rcases Nat.eq_zero_or_pos k with hk | hk
        · subst hk
          rw [hloop]
          show (setF (setF fs 1 (some s)) 0 none) 0 = none
          exact setF_same _ _ _
        · rw [hloop]; exact C hk
    | none =>
      have hstep : renameStep fs (k + 1) = fs := by
        simp [renameStep, hk1, hc]
      have hloop : renameLoop fs (k + 1) = renameLoop fs k := by
        simp [renameLoop, hstep]
      obtain ⟨A, B, C⟩ := ih fs hc
      refine ⟨?_, ?_, ?_⟩
      · intro j hj
        rw [hloop]; exact A j (by omega)
      · intro j h1 h2
        rcases Nat.lt_or_ge j (k + 1) with hj | hj
        · rw [hloop]; exact B j h1 (by omega)
        · have hj' : j = k + 1 := by omega
          subst hj'
          rw [hloop, A (k + 1) (by omega), h, hk1, hc]
      · intro _
        rcases Nat.eq_zero_or_pos k with hk | hk
        · subst hk; rw [hloop]; exact hc
        · rw [hloop]; exact C hk

/-- `File::rotate_files`: flush and close the handle, delete `P.max_files`
if it exists (only when `max_files > 0`), run the rename cascade, reopen
`P` in append mode (an existing file keeps its content, a missing one is
created empty) and reset `current_size` to `0`. -/
def rotate_files (st : FileState) : FileState :=
  let fs1 := if 0 < st.maxFiles then setF st.fs st.maxFiles none else st.fs
  let fs2 := renameLoop fs1 st.maxFiles
  { st with
    fs := setF fs2 0 (some ((fs2 0).getD 0)),
    currentSize := 0,
    rotations := st.rotations + 1 }

/-- `File::log` after the sink-level check and message formatting: under
the path mutex, rotate first when `max_file_size > 0` and
`current_size + line > max_file_size`, then append the line and add its
size to `current_size`.  `len` is the length of the formatted message. -/
def emit (st : FileState) (len : Nat) : FileState :=
  let st1 := if 0 < st.maxFileSize ∧ st.maxFileSize < st.currentSize + len
    then rotate_files st else st
  { st1 with
    fs := setF st1.fs 0 (some ((st1.fs 0).getD 0 + len)),
    currentSize := st1.currentSize + len }

def runEmits (st : FileState) (lens : List Nat) : FileState :=
  lens.foldl emit st

/-- The state right after a successful `File::setup` on a path with no
pre-existing files: the base file exists empty and the byte counter is 0. -/
def freshFile (S N : Nat) : FileState :=
  ⟨fun i => if i = 0 then some 0 else none, 0, S, N, 0⟩

/-- Characterisation of one rotation when `max_files ≥ 1`:
the base file is reopened empty with the counter reset, every generation
slot `1 ≤ i ≤ max_files` receives the previous generation `i - 1`, and
slots above `max_files` are untouched. -/
theorem rotate_files_spec (st : FileState) (hN : 1 ≤ st.maxFiles) :
    (rotate_files st).fs 0 = some 0
    ∧ (∀ i, 1 ≤ i → i ≤ st.maxFiles → (rotate_files st).fs i = st.fs (i - 1))
    ∧ (∀ i, st.maxFiles < i → (rotate_files st).fs i = st.fs i)
    ∧ (rotate_files st).currentSize = 0
    ∧ (rotate_files st).maxFiles = st.maxFiles
    ∧ (rotate_files st).maxFileSize = st.maxFileSize
    ∧ (rotate_files st).rotations = st.rotations + 1 := by
  have hif : (if 0 < st.maxFiles then setF st.fs st.maxFiles none else st.fs)
      = setF st.fs st.maxFiles none := if_pos (by omega)
  obtain ⟨A, B, C⟩ := renameLoop_spec st.maxFiles (setF st.fs st.maxFiles none) (setF_same _ _ _)
  have h0 : renameLoop (setF st.fs st.maxFiles none) st.maxFiles 0 = none := C hN
  have hrot : rotate_files st = { st with
      fs := setF (renameLoop (setF st.fs st.maxFiles none) st.maxFiles) 0 (some 0),
      currentSize := 0,
      rotations := st.rotations + 1 } := by
    simp only [rotate_files, hif, h0, Option.getD_none]
  rw [hrot]
  refine ⟨?_, ?_, ?_, rfl, rfl, rfl, rfl⟩
  · show setF (renameLoop (setF st.fs st.maxFiles none) st.maxFiles) 0 (some 0) 0 = some 0
    exact setF_same _ _ _
  · intro i hi1 hi2
    show setF (renameLoop (setF st.fs st.maxFiles none) st.maxFiles) 0 (some 0) i = st.fs (i - 1)
    rw [setF_ne _ _ (by omega), B i hi1 hi2, setF_ne _ _ (by omega)]
  · intro i hi
    show setF (renameLoop (setF st.fs st.maxFiles none) st.maxFiles) 0 (some 0) i = st.fs i
    rw [setF_ne _ _ (by omega), A i hi, setF_ne _ _ (by omega)]

/-- `File::rotate_files` when `max_files == 0`: the deletion step is
skipped (`max_files > 0` guard) and the rename loop runs zero times, but
the handle is still closed and reopened in append mode (keeping the base
file's content) and `current_size` is still reset to `0`. -/
theorem rotate_files_zero (st : FileState) (h : st.maxFiles = 0) :
    rotate_files st = { st with
      fs := setF st.fs 0 (some ((st.fs 0).getD 0)),
      currentSize := 0,
      rotations := st.rotations + 1 } := by
  simp [rotate_files, h, renameLoop]

/-- The invariant behind the rotation bound: the base file's size agrees
with the byte counter, the counter never exceeds `max S M`, and every
rotated generation is at most `max S M` bytes. -/
def FileInv (S N M : Nat) (st : FileState) : Prop :=
  st.maxFileSize = S ∧ st.maxFiles = N
    ∧ st.fs 0 = some st.currentSize
    ∧ st.currentSize ≤ max S M
    ∧ ∀ i, 1 ≤ i → ∀ s, st.fs i = some s → s ≤ max S M

theorem emit_preserves_inv (S N M : Nat) (hS : 0 < S) (hN : 1 ≤ N)
    (len : Nat) (hlen : len ≤ M) (st : FileState) (h : FileInv S N M st) :
    FileInv S N M (emit st len) := by
  obtain ⟨h1, h2, h3, h4, h5⟩ := h
  by_cases hc : 0 < st.maxFileSize ∧ st.maxFileSize < st.currentSize + len
  · have hN' : 1 ≤ st.maxFiles := by omega
    obtain ⟨r0, rlow, rhigh, rcur, rmaxf, rmaxs, _⟩ := rotate_files_spec st hN'
    have hemit : emit st len = { rotate_files st with
        fs := setF (rotate_files st).fs 0 (some (((rotate_files st).fs 0).getD 0 + len)),
        currentSize := (rotate_files st).currentSize + len } := by
      simp only [emit, if_pos hc]
    rw [hemit]
    refine ⟨by simpa using rmaxs.trans h1, by simpa using rmaxf.trans h2, ?_, ?_, ?_⟩
    · show setF (rotate_files st).fs 0 (some (((rotate_files st).fs 0).getD 0 + len)) 0
        = some ((rotate_files st).currentSize + len)
      rw [setF_same, r0, rcur]
      rfl
    · show (rotate_files st).currentSize + len ≤ max S M
      rw [rcur]
      have : M ≤ max S M := Nat.le_max_right _ _
      omega
    · intro i hi s hs
      rw [show ({ rotate_files st with
          fs := setF (rotate_files st).fs 0 (some (((rotate_files st).fs 0).getD 0 + len)),
          currentSize := (rotate_files st).currentSize + len } : FileState).fs
          = setF (rotate_files st).fs 0 (some (((rotate_files st).fs 0).getD 0 + len)) from rfl,
        setF_ne _ _ (by omega)] at hs
      rcases le_or_lt i st.maxFiles with hle | hlt
      · rw [rlow i hi hle] at hs
        rcases Nat.eq_zero_or_pos (i - 1) with h0 | hpos
        · rw [h0, h3] at hs
          injection hs with hh
          exact hh ▸ h4
        · exact h5 (i - 1) hpos s hs
      · rw [rhigh i hlt] at hs
        exact h5 i hi s hs
  · have hemit : emit st len = { st with
        fs := setF st.fs 0 (some ((st.fs 0).getD 0 + len)),
        currentSize := st.currentSize + len } := by
      simp only [emit, if_neg hc]
    rw [hemit]
    have hbound : st.currentSize + len ≤ S := by
      rw [h1] at hc
      omega
    refine ⟨h1, h2, ?_, ?_, ?_⟩
    · show setF st.fs 0 _ 0 = some (st.currentSize + len)
      rw [setF_same, h3]
      rfl
    · show st.currentSize + len ≤ max S M
      exact hbound.trans (Nat.le_max_left _ _)
    · intro i hi s hs
      rw [show ({ st with
          fs := setF st.fs 0 (some ((st.fs 0).getD 0 + len)),
          currentSize := st.currentSize + len } : FileState).fs
          = setF st.fs 0 (some ((st.fs 0).getD 0 + len)) from rfl,
        setF_ne _ _ (by omega)] at hs
      exact h5 i hi s hs

theorem runEmits_preserves_inv (S N M : Nat) (hS : 0 < S) (hN : 1 ≤ N) :
    ∀ (lens : List Nat) (st : FileState), FileInv S N M st → (∀ l ∈ lens, l ≤ M) →
      FileInv S N M (runEmits st lens) := by
  intro lens
  induction lens with
  | nil => intro st h _; exact h
  | cons l ls ih =>
    intro st h hM
    have hstep := emit_preserves_inv S N M hS hN l (hM l (by simp)) st h
    exact ih (emit st l) hstep (fun x hx => hM x (by simp [hx]))

theorem freshFile_inv (S N M : Nat) : FileInv S N M (freshFile S N) := by
  refine ⟨rfl, rfl, rfl, Nat.zero_le _, ?_⟩
  intro i hi s hs
  have : (if i = 0 then some 0 else none : Option Nat) = some s := hs
  rw [if_neg (by omega)] at this
  exact absurd this (by simp)

/-- C2.  Rotation bound: for any sequence of emits on one shared file
state with `max_file_size = S > 0` and `max_files ≥ 1`, starting from a
fresh setup, every rotated generation file has size at most `S` plus the
length `M` that bounds every single formatted message: `File::log` checks
`current_size + line > max_file_size` and rotates before writing, so no
write lands in a file already past the limit. -/
theorem rotated_file_size_bound (S N M : Nat) (hS : 0 < S) (hN : 1 ≤ N)
    (lens : List Nat) (hM : ∀ l ∈ lens, l ≤ M) :
    ∀ i, 1 ≤ i → ∀ s, (runEmits (freshFile S N) lens).fs i = some s → s ≤ S + M := by
  intro i hi s hs
  obtain ⟨_, _, _, _, h5⟩ :=
    runEmits_preserves_inv S N M hS hN lens (freshFile S N) (freshFile_inv S N M) hM
  have hmax : max S M ≤ S + M :=
    Nat.max_le.mpr ⟨Nat.le_add_right _ _, Nat.le_add_left _ _⟩
  exact (h5 i hi s hs).trans hmax

theorem rotated_file_size_bound_witness :
    (runEmits (freshFile 5 1) [3, 3, 3]).fs 1 = some 3 ∧ (3 : Nat) ≤ 5 + 3 :=
  ⟨by decide,
    rotated_file_size_bound 5 1 3 (by decide) (by decide) [3, 3, 3] (by decide)
      1 (by decide) 3 (by decide)⟩

/-- C3 (counterexample).  The claim says that with `max_files == 0` no
emit call ever closes and reopens the file or resets the byte counter.
On a fresh sink with `max_file_size = 5, max_files = 0`, two emits of 10
bytes each trigger two rotations (two close/reopen cycles), and the byte
counter ends at 10 while the base file has actually grown to 20 bytes —
the counter was reset. -/
theorem rotation_not_disabled_counterexample :
    (runEmits (freshFile 5 0) [10, 10]).rotations = 2
    ∧ (runEmits (freshFile 5 0) [10, 10]).currentSize = 10
    ∧ (runEmits (freshFile 5 0) [10, 10]).fs 0 = some 20 := by
  decide

/-- C3 (amended).  With `max_files == 0`, no emit call ever renames or
deletes any file — the generation slots `P.i`, `i ≥ 1`, are never touched
and the base file only grows by the line written — but rotation is not
entirely disabled: whenever `max_file_size > 0` and
`current_size + line > max_file_size`, the emit still closes and reopens
the shared handle (one `rotate_files` invocation) and resets the byte
counter to 0 before counting the new line. -/
theorem max_files_zero_no_rename (st : FileState) (len : Nat) (h : st.maxFiles = 0) :
    (∀ i, 1 ≤ i → (emit st len).fs i = st.fs i)
    ∧ (emit st len).fs 0 = some ((st.fs 0).getD 0 + len)
    ∧ (emit st len).currentSize
        = (if 0 < st.maxFileSize ∧ st.maxFileSize < st.currentSize + len
            then len else st.currentSize + len)
    ∧ (emit st len).rotations
        = st.rotations + (if 0 < st.maxFileSize ∧ st.maxFileSize < st.currentSize + len
            then 1 else 0) := by
  by_cases hc : 0 < st.maxFileSize ∧ st.maxFileSize < st.currentSize + len
  · have hrot := rotate_files_zero st h
    have hemit : emit st len = { rotate_files st with
        fs := setF (rotate_files st).fs 0 (some (((rotate_files st).fs 0).getD 0 + len)),
        currentSize := (rotate_files st).currentSize + len } := by
      simp only [emit, if_pos hc]
    rw [hemit, hrot]
    refine ⟨?_, ?_, ?_, ?_⟩
    · intro i hi
      show setF (setF st.fs 0 (some ((st.fs 0).getD 0)))
        0 (some (((setF st.fs 0 (some ((st.fs 0).getD 0))) 0).getD 0 + len)) i = st.fs i
      rw [setF_ne _ _ (by omega), setF_ne _ _ (by omega)]
    · show setF (setF st.fs 0 (some ((st.fs 0).getD 0)))
        0 (some (((setF st.fs 0 (some ((st.fs 0).getD 0))) 0).getD 0 + len)) 0
        = some ((st.fs 0).getD 0 + len)
      rw [setF_same, setF_same]
      rfl
    · show 0 + len = _
      rw [if_pos hc]
      omega
    · show st.rotations + 1 = _
      rw [if_pos hc]
  · have hemit : emit st len = { st with
        fs := setF st.fs 0 (some ((st.fs 0).getD 0 + len)),
        currentSize := st.currentSize + len } := by
      simp only [emit, if_neg hc]
    rw [hemit]
    refine ⟨?_, ?_, ?_, ?_⟩
    · intro i hi
      show setF st.fs 0 (some ((st.fs 0).getD 0 + len)) i = st.fs i
      rw [setF_ne _ _ (by omega)]
    · show setF st.fs 0 (some ((st.fs 0).getD 0 + len)) 0 = some ((st.fs 0).getD 0 + len)
      rw [setF_same]
    · show st.currentSize + len = _
      rw [if_neg hc]
    · show st.rotations = _
      rw [if_neg hc]
      omega

theorem max_files_zero_no_rename_witness :
    (emit (freshFile 5 0) 10).fs 1 = (freshFile 5 0).fs 1
    ∧ (emit (freshFile 5 0) 10).fs 0 = some (((freshFile 5 0).fs 0).getD 0 + 10)
    ∧ (emit (freshFile 5 0) 10).currentSize
        = (if 0 < (freshFile 5 0).maxFileSize
              ∧ (freshFile 5 0).maxFileSize < (freshFile 5 0).currentSize + 10
            then 10 else (freshFile 5 0).currentSize + 10) :=
  ⟨(max_files_zero_no_rename (freshFile 5 0) 10 rfl).1 1 (by decide),
    (max_files_zero_no_rename (freshFile 5 0) 10 rfl).2.1,
    (max_files_zero_no_rename (freshFile 5 0) 10 rfl).2.2.1⟩

/-- The retention invariant: no generation slot beyond `max_files` is
ever occupied. -/
def RetInv (N : Nat) (st : FileState) : Prop :=
  st.maxFiles = N ∧ ∀ i, N < i → st.fs i = none

theorem emit_preserves_ret (N : Nat) (hN : 1 ≤ N) (len : Nat) (st : FileState)
    (h : RetInv N st) : RetInv N (emit st len) := by
  obtain ⟨h1, h2⟩ := h
  by_cases hc : 0 < st.maxFileSize ∧ st.maxFileSize < st.currentSize + len
  · obtain ⟨_, _, rhigh, _, rmaxf, _, _⟩ := rotate_files_spec st (by omega)
    have hemit : emit st len = { rotate_files st with
        fs := setF (rotate_files st).fs 0 (some (((rotate_files st).fs 0).getD 0 + len)),
        currentSize := (rotate_files st).currentSize + len } := by
      simp only [emit, if_pos hc]
    rw [hemit]
    refine ⟨by simpa using rmaxf.trans h1, ?_⟩
    intro i hi
    show setF (rotate_files st).fs 0 (some (((rotate_files st).fs 0).getD 0 + len)) i = none
    rw [setF_ne _ _ (by omega), rhigh i (by omega)]
    exact h2 i hi
  · have hemit : emit st len = { st with
        fs := setF st.fs 0 (some ((st.fs 0).getD 0 + len)),
        currentSize := st.currentSize + len } := by
      simp only [emit, if_neg hc]
    rw [hemit]
    refine ⟨h1, ?_⟩
    intro i hi
    show setF st.fs 0 (some ((st.fs 0).getD 0 + len)) i = none
    rw [setF_ne _ _ (by omega)]
    exact h2 i hi

theorem runEmits_preserves_ret (N : Nat) (hN : 1 ≤ N) :
    ∀ (lens : List Nat) (st : FileState), RetInv N st → RetInv N (runEmits st lens) := by
  intro lens
  induction lens with
  | nil => intro st h; exact h
  | cons l ls ih =>
    intro st h
    exact ih (emit st l) (emit_preserves_ret N hN l st h)

/-- C4.  Generation retention: one rotation with `max_files = N ≥ 1`
deletes `P.N`, shifts `P → P.1`, `P.(i-1) → P.i` up to `N`, reopens `P`
empty and resets the byte counter; and over any sequence of emits from a
fresh setup no file beyond index `N` (in particular `P.(N+1)`) ever
exists. -/
theorem rotate_generation_retention (N : Nat) (hN : 1 ≤ N) (st : FileState)
    (hst : st.maxFiles = N) (S : Nat) :
    ((rotate_files st).currentSize = 0
      ∧ (rotate_files st).fs 0 = some 0
      ∧ (∀ i, 1 ≤ i → i ≤ N → (rotate_files st).fs i = st.fs (i - 1))
      ∧ (∀ i, N < i → (rotate_files st).fs i = st.fs i))
    ∧ (∀ (lens : List Nat) i, N < i → (runEmits (freshFile S N) lens).fs i = none) := by
  obtain ⟨r0, rlow, rhigh, rcur, _, _, _⟩ := rotate_files_spec st (by omega)
  refine ⟨⟨rcur, r0, ?_, ?_⟩, ?_⟩
  · intro i hi1 hi2
    exact rlow i hi1 (by omega)
  · intro i hi
    exact rhigh i (by omega)
  · intro lens i hi
    have hfresh : RetInv N (freshFile S N) := by
      refine ⟨rfl, ?_⟩
      intro j hj
      show (if j = 0 then some 0 else none : Option Nat) = none
      rw [if_neg (by omega)]
    exact (runEmits_preserves_ret N hN lens (freshFile S N) hfresh).2 i hi

theorem rotate_generation_retention_witness :
    (rotate_files (freshFile 7 1)).currentSize = 0
    ∧ (runEmits (freshFile 7 1) [9, 9]).fs 2 = none :=
  ⟨(rotate_generation_retention 1 (by decide) (freshFile 7 1) rfl 7).1.1,
    (rotate_generation_retention 1 (by decide) (freshFile 7 1) rfl 7).2 [9, 9] 2 (by decide)⟩

/-! ## Rate-limited logging: `Logger::log_limited`,
`Logger::limited_allowed_left` (`src/slog_logger.cpp`) and
`Logger::reset_limited` (`include/slog/slog.hpp`)

`std::map<std::string, LimitedControl>` is modelled as an association
list with in-place value update (`auto & ctrl = limited_items_[tag]` is a
reference, so writing through it mutates the stored entry). -/

/-- The `LimitedControl` struct: `int allowed; int count;`. -/
structure LimitedControl where
  allowed : Int
  count : Int
  deriving DecidableEq, Repr

/-- Keyed lookup in an association list (`std::map::find`). -/
def lookupS {α : Type} (k : String) : List (String × α) → Option α
  | [] => none
  | (k2, v) :: rest => if k2 = k then some v else lookupS k rest

/-- Keyed in-place store (`map[k] = v`): overwrites the entry when the key
exists, appends a new entry otherwise. -/
def updMap {α : Type} (m : List (String × α)) (k : String) (v : α) : List (String × α) :=
  match m with
  | [] => [(k, v)]
  | (k2, v2) :: rest => if k2 = k then (k, v) :: rest else (k2, v2) :: updMap rest k v

theorem lookupS_updMap_self {α : Type} (m : List (String × α)) (k : String) (v : α) :
    lookupS k (updMap m k v) = some v := by
  induction m with
  | nil => simp [updMap, lookupS]
  | cons h t ih =>
    by_cases hk : h.1 = k
    · simp [updMap, hk, lookupS]
    · simp [updMap, hk, lookupS, ih]

theorem lookupS_updMap_ne {α : Type} (m : List (String × α)) {k k2 : String} (v : α)
    (h : k2 ≠ k) : lookupS k2 (updMap m k v) = lookupS k2 m := by
  induction m with
  | nil => simp [updMap, lookupS, Ne.symm h]
  | cons hd t ih =>
    by_cases hk : hd.1 = k
    · subst hk
      simp [updMap, lookupS, Ne.symm h, h]
    · by_cases hk2 : hd.1 = k2 <;> simp [updMap, lookupS, hk, hk2, ih, h]

theorem updMap_self {α : Type} (m : List (String × α)) (k : String) (v : α)
    (h : lookupS k m = some v) : updMap m k v = m := by
  induction m with
  | nil => simp [lookupS] at h
  | cons hd t ih =>
    by_cases hk : hd.1 = k
    · have : hd = (k, v) := by
        have hv : some hd.2 = some v := by
          rw [← h]
          show some hd.2 = lookupS k (hd :: t)
          simp [lookupS, hk]
        cases hd
        simp_all
      simp [updMap, hk, this]
    · have ht : lookupS k t = some v := by
        have : lookupS k (hd :: t) = lookupS k t := by simp [lookupS, hk]
        rw [← this, h]
      simp [updMap, hk, ih ht]

theorem updMap_updMap {α : Type} (m : List (String × α)) (k : String) (v w : α) :
    updMap (updMap m k v) k w = updMap m k w := by
  induction m with
  | nil => simp [updMap]
  | cons hd t ih =>
    by_cases hk : hd.1 = k
    · simp [updMap, hk]
    · simp [updMap, hk, ih]

/-- The part of a `Logger` that rate limiting touches: the validity flag,
the cached `min_level_`, and the per-tag `limited_items_` map. -/
structure LoggerState where
  valid : Bool
  minLevel : LogLevel
  limited : List (String × LimitedControl)
  deriving DecidableEq, Repr

/-- `Logger::limited_allowed_left`: create the tag's entry (`allowed :=
allowed_num, count := 0`) when missing; overwrite `allowed` when it
differs from `allowed_num`; if `count < allowed`, return `allowed - count`
and increment `count`; otherwise return 0.  All writes go through a
reference into the map, so they persist even when nothing is emitted. -/
def limited_allowed_left (st : LoggerState) (tag : String) (allowedNum : Int) :
    Int × LoggerState :=
  let m0 := match lookupS tag st.limited with
    | none => updMap st.limited tag ⟨allowedNum, 0⟩
    | some _ => st.limited
  let c0 := (lookupS tag m0).getD ⟨allowedNum, 0⟩
  let c1 := if c0.allowed ≠ allowedNum then { c0 with allowed := allowedNum } else c0
  if c1.count < c1.allowed then
    (c1.allowed - c1.count, { st with limited := updMap m0 tag ⟨c1.allowed, c1.count + 1⟩ })
  else
    (0, { st with limited := updMap m0 tag c1 })

/-- The suffix appended to the message that exhausts a tag's quota. -/
def suppressSuffix : String := " (more messages will be suppressed)"

/-- `Logger::log_limited`: query `limited_allowed_left` first (its counter
side effect happens unconditionally), then emit only when the logger is
valid, the level passes `min_level_`, and the returned budget is
positive; the message that exhausts the quota (`left == 1`) carries the
suppression suffix.  The returned `Option String` is the message handed
to the sinks, `none` when nothing is emitted. -/
def log_limited (st : LoggerState) (tag : String) (allowedNum : Int)
    (level : LogLevel) (msg : String) : Option String × LoggerState :=
  let r := limited_allowed_left st tag allowedNum
  if st.valid = true ∧ st.minLevel.toNat ≤ level.toNat ∧ 0 < r.1 then
    (some (if r.1 = 1 then msg ++ suppressSuffix else msg), r.2)
  else
    (none, r.2)

/-- `Logger::reset_limited` (`slog.hpp`): zero `count` for the tag when it
exists, leave `allowed` alone. -/
def reset_limited (st : LoggerState) (tag : String) : LoggerState :=
  match lookupS tag st.limited with
  | none => st
  | some c => { st with limited := updMap st.limited tag ⟨c.allowed, 0⟩ }

/-- `k` successive `log_limited` calls with the same tag, quota, level and
message; returns the list of per-call sink messages and the final state. -/
def run_limited (tag : String) (n : Int) (level : LogLevel) (msg : String) :
    LoggerState → Nat → List (Option String) × LoggerState
  | st, 0 => ([], st)
  | st, k + 1 =>
    let r := log_limited st tag n level msg
    let rest := run_limited tag n level msg r.2 k
    (r.1 :: rest.1, rest.2)

/-- Characterisation of `limited_allowed_left` on a tag whose entry is
`⟨a, c⟩`: `allowed` is overwritten with the call's quota, and `count`
increments exactly when `count < allowed` (checked after the overwrite). -/
theorem limited_allowed_left_some (st : LoggerState) (tag : String) (n a c : Int)
    (h : lookupS tag st.limited = some (LimitedControl.mk a c)) :
    limited_allowed_left st tag n
      = (if c < n then n - c else 0,
         { st with limited := updMap st.limited tag (LimitedControl.mk n (if c < n then c + 1 else c)) }) := by
  by_cases han : a = n <;> by_cases hcn : c < n <;>
    simp [limited_allowed_left, h, han, hcn, lookupS_updMap_self, updMap_updMap]

/-- Characterisation of `limited_allowed_left` on a tag with no entry
yet: the entry is created with count `0` and then handled as usual. -/
theorem limited_allowed_left_fresh (st : LoggerState) (tag : String) (n : Int)
    (h : lookupS tag st.limited = none) :
    limited_allowed_left st tag n
      = (if 0 < n then n else 0,
         { st with limited := updMap st.limited tag (LimitedControl.mk n (if 0 < n then 1 else 0)) }) := by
  by_cases hn0 : 0 < n <;>
    simp [limited_allowed_left, h, hn0, lookupS_updMap_self, updMap_updMap]

/-- Single-call characterisation of `log_limited` when the tag's entry is
`⟨n, c⟩` and the call passes validity and level filtering. -/
theorem log_limited_char (st : LoggerState) (tag : String) (n c : Int)
    (level : LogLevel) (msg : String)
    (hv : st.valid = true) (hl : st.minLevel.toNat ≤ level.toNat)
    (hc : lookupS tag st.limited = some (LimitedControl.mk n c)) :
    log_limited st tag n level msg
      = (if c < n then some (if n - c = 1 then msg ++ suppressSuffix else msg) else none,
         { st with limited := updMap st.limited tag (LimitedControl.mk n (if c < n then c + 1 else c)) }) := by
  have h0 := limited_allowed_left_some st tag n n c hc
  by_cases hcn : c < n
  · simp only [if_pos hcn] at h0 ⊢
    simp only [log_limited, h0]
    rw [if_pos ⟨hv, hl, by omega⟩]
  · simp only [if_neg hcn] at h0 ⊢
    simp only [log_limited, h0]
    rw [if_neg (by intro hcon; omega)]

/-- Single-call characterisation of `log_limited` on a tag with no entry
yet and a positive quota. -/
theorem log_limited_fresh (st : LoggerState) (tag : String) (n : Int)
    (level : LogLevel) (msg : String) (hn : 1 ≤ n)
    (hv : st.valid = true) (hl : st.minLevel.toNat ≤ level.toNat)
    (hfresh : lookupS tag st.limited = none) :
    log_limited st tag n level msg
      = (some (if n = 1 then msg ++ suppressSuffix else msg),
         { st with limited := updMap st.limited tag (LimitedControl.mk n 1) }) := by
  have h0 := limited_allowed_left_fresh st tag n hfresh
  simp only [if_pos (show (0 : Int) < n by omega)] at h0
  simp only [log_limited, h0]
  rw [if_pos ⟨hv, hl, by omega⟩]

/-- The sink message produced by one `log_limited` call whose tag entry
has count `c` and quota `n`. -/
def expOut (n : Int) (msg : String) (c : Int) : Option String :=
  if c < n then some (if n - c = 1 then msg ++ suppressSuffix else msg) else none

theorem expOut_min_eq (n : Int) (msg : String) (j : Int) (h0 : 0 ≤ j) :
    expOut n msg (min j n)
      = if j < n then some (if j = n - 1 then msg ++ suppressSuffix else msg) else none := by
  by_cases hj : j < n
  · rw [min_eq_left (by omega)]
    unfold expOut
    rw [if_pos hj, if_pos hj]
    exact congrArg _ (if_congr (by omega) rfl rfl)
  · rw [min_eq_right (by omega)]
    unfold expOut
    rw [if_neg (by omega), if_neg hj]

/-- Run of `k` calls starting from a state whose tag entry is `⟨n, c⟩`
with `0 ≤ c ≤ n`: the `j`-th call sees count `min (c + j) n`, and the
final count is `min (c + k) n`. -/
theorem run_limited_from_count (tag msg : String) (level : LogLevel) (n : Int) :
    ∀ (k : Nat) (st : LoggerState) (c : Int), st.valid = true →
      st.minLevel.toNat ≤ level.toNat →
      lookupS tag st.limited = some (LimitedControl.mk n c) → 0 ≤ c → c ≤ n →
      (run_limited tag n level msg st k).1
          = (List.range k).map (fun (j : Nat) => expOut n msg (min (c + (j : Int)) n))
        ∧ (run_limited tag n level msg st k).2
          = { st with limited := updMap st.limited tag (LimitedControl.mk n (min (c + (k : Int)) n)) } := by
  intro k
  induction k with
  | zero =>
    intro st c hv hl hc h0 hcn
    refine ⟨rfl, ?_⟩
    have hm : min (c + ((0 : Nat) : Int)) n = c := by
      simp only [Nat.cast_zero, add_zero]
      omega
    rw [hm, updMap_self st.limited tag (LimitedControl.mk n c) hc]
    rfl
  | succ k ih =>
    intro st c hv hl hc h0 hcn
    have hchar := log_limited_char st tag n c level msg hv hl hc
    have hstep : run_limited tag n level msg st (k + 1)
        = ((log_limited st tag n level msg).1 ::
            (run_limited tag n level msg (log_limited st tag n level msg).2 k).1,
           (run_limited tag n level msg (log_limited st tag n level msg).2 k).2) := rfl
    set c2 : Int := if c < n then c + 1 else c with hc2
    have hst1 : (log_limited st tag n level msg).2
        = { st with limited := updMap st.limited tag (LimitedControl.mk n c2) } := by rw [hchar]
    have hlook : lookupS tag ({ st with limited := updMap st.limited tag (LimitedControl.mk n c2) } : LoggerState).limited
        = some (LimitedControl.mk n c2) := lookupS_updMap_self _ _ _
    have hc2n : c2 ≤ n := by rw [hc2]; split <;> omega
    have hc20 : 0 ≤ c2 := by rw [hc2]; split <;> omega
    obtain ⟨ihout, ihstate⟩ := ih { st with limited := updMap st.limited tag (LimitedControl.mk n c2) } c2
      hv hl hlook hc20 hc2n
    constructor
    · rw [hstep]
      show (log_limited st tag n level msg).1 ::
          (run_limited tag n level msg (log_limited st tag n level msg).2 k).1 = _
      rw [hst1, ihout, hchar, List.range_succ_eq_map, List.map_cons, List.map_map]
      congr 1
      · show (if c < n then some (if n - c = 1 then msg ++ suppressSuffix else msg) else none)
          = expOut n msg (min (c + ((0 : Nat) : Int)) n)
        have hm : min (c + ((0 : Nat) : Int)) n = c := by
          simp only [Nat.cast_zero, add_zero]
          omega
        rw [hm]
        rfl
      · apply List.map_congr_left
        intro j _
        show expOut n msg (min (c2 + (j : Int)) n)
          = expOut n msg (min (c + ((j + 1 : Nat) : Int)) n)
        have hm : min (c2 + (j : Int)) n = min (c + ((j + 1 : Nat) : Int)) n := by
          rw [hc2]
          push_cast
          split <;> omega
        rw [hm]
    · rw [hstep]
      show (run_limited tag n level msg (log_limited st tag n level msg).2 k).2 = _
      rw [hst1, ihstate]
      show ({ st with limited := updMap (updMap st.limited tag (LimitedControl.mk n c2)) tag (LimitedControl.mk n (min (c2 + (k : Int)) n)) } : LoggerState) = _
      rw [updMap_updMap]
      have hm : min (c2 + (k : Int)) n = min (c + ((k + 1 : Nat) : Int)) n := by
        rw [hc2]
        push_cast
        split <;> omega
      rw [hm]

/-- Run of `k ≥ 1` calls on a tag with no entry yet: behaves like count
`0`. -/
theorem run_limited_from_fresh (tag msg : String) (level : LogLevel) (n : Int)
    (hn : 1 ≤ n) (k : Nat) (st : LoggerState) (hv : st.valid = true)
    (hl : st.minLevel.toNat ≤ level.toNat)
    (hfresh : lookupS tag st.limited = none) (hk : 1 ≤ k) :
    (run_limited tag n level msg st k).1
        = (List.range k).map (fun (j : Nat) => expOut n msg (min ((j : Int)) n))
      ∧ (run_limited tag n level msg st k).2
        = { st with limited := updMap st.limited tag (LimitedControl.mk n (min ((k : Int)) n)) } := by
  obtain ⟨m, rfl⟩ : ∃ m, k = m + 1 := ⟨k - 1, by omega⟩
  have hchar := log_limited_fresh st tag n level msg hn hv hl hfresh
  have hstep : run_limited tag n level msg st (m + 1)
      = ((log_limited st tag n level msg).1 ::
          (run_limited tag n level msg (log_limited st tag n level msg).2 m).1,
         (run_limited tag n level msg (log_limited st tag n level msg).2 m).2) := rfl
  have hst1 : (log_limited st tag n level msg).2
      = { st with limited := updMap st.limited tag (LimitedControl.mk n 1) } := by rw [hchar]
  have hlook : lookupS tag ({ st with limited := updMap st.limited tag (LimitedControl.mk n 1) } : LoggerState).limited
      = some (LimitedControl.mk n 1) := lookupS_updMap_self _ _ _
  obtain ⟨ihout, ihstate⟩ := run_limited_from_count tag msg level n m
    { st with limited := updMap st.limited tag (LimitedControl.mk n 1) } 1 hv hl hlook (by omega) (by omega)
  constructor
  · rw [hstep]
    show (log_limited st tag n level msg).1 ::
        (run_limited tag n level msg (log_limited st tag n level msg).2 m).1 = _
    rw [hst1, ihout, hchar, List.range_succ_eq_map, List.map_cons, List.map_map]
    congr 1
    · show some (if n = 1 then msg ++ suppressSuffix else msg)
        = expOut n msg (min ((0 : Nat) : Int) n)
      have hm : min ((0 : Nat) : Int) n = 0 := by
        simp only [Nat.cast_zero]
        omega
      rw [hm]
      unfold expOut
      rw [if_pos (show (0 : Int) < n by omega)]
      exact congrArg _ (if_congr (by omega) rfl rfl)
    · apply List.map_congr_left
      intro j _
      show expOut n msg (min ((1 : Int) + (j : Int)) n)
        = expOut n msg (min ((j + 1 : Nat) : Int) n)
      have hm : min ((1 : Int) + (j : Int)) n = min ((j + 1 : Nat) : Int) n := by
        push_cast
        omega
      rw [hm]
  · rw [hstep]
    show (run_limited tag n level msg (log_limited st tag n level msg).2 m).2 = _
    rw [hst1, ihstate]
    show ({ st with limited := updMap (updMap st.limited tag (LimitedControl.mk n 1)) tag (LimitedControl.mk n (min ((1 : Int) + (m : Int)) n)) } : LoggerState) = _
    rw [updMap_updMap]
    have hm : min ((1 : Int) + (m : Int)) n = min ((m + 1 : Nat) : Int) n := by
      push_cast
      omega
    rw [hm]

/-- C5.  Quota cycle of `log_limited` for a fixed tag and quota `n ≥ 1`
on a valid logger at an admitted level, starting with no entry for the
tag: call `j + 1` (0-indexed `j`) emits exactly when `j < n`, and the
call that exhausts the quota (`j = n - 1`, the `n`-th call) is the only
one carrying the suppression suffix; every call beyond the `n`-th leaves
the logger state completely unchanged; and after `reset_limited` zeroes
the tag's count, the next `n` calls all emit again (with the suffix again
exactly on the last one). -/
theorem log_limited_quota_cycle (tag msg : String) (level : LogLevel) (n : Int)
    (st : LoggerState) (hn : 1 ≤ n) (hv : st.valid = true)
    (hl : st.minLevel.toNat ≤ level.toNat)
    (hfresh : lookupS tag st.limited = none) :
    (∀ k j : Nat, j < k →
      (run_limited tag n level msg st k).1.get? j
        = some (if (j : Int) < n
            then some (if (j : Int) = n - 1 then msg ++ suppressSuffix else msg)
            else none))
    ∧ (∀ k : Nat, n ≤ (k : Int) →
        (run_limited tag n level msg st (k + 1)).2 = (run_limited tag n level msg st k).2)
    ∧ (∀ k : Nat, 1 ≤ k → ∀ j : Nat, (j : Int) < n →
        (run_limited tag n level msg
            (reset_limited (run_limited tag n level msg st k).2 tag) n.toNat).1.get? j
          = some (some (if (j : Int) = n - 1 then msg ++ suppressSuffix else msg))) := by
  refine ⟨?_, ?_, ?_⟩
  · intro k j hjk
    obtain ⟨hout, _⟩ := run_limited_from_fresh tag msg level n hn k st hv hl hfresh (by omega)
    rw [hout, List.get?_map, List.get?_range hjk]
    show some (expOut n msg (min ((j : Int)) n)) = _
    rw [expOut_min_eq n msg (j : Int) (by omega)]
  · intro k hk
    have hk1 : 1 ≤ k := by omega
    obtain ⟨_, hst1⟩ := run_limited_from_fresh tag msg level n hn (k + 1) st hv hl hfresh (by omega)
    obtain ⟨_, hst2⟩ := run_limited_from_fresh tag msg level n hn k st hv hl hfresh hk1
    rw [hst1, hst2]
    have hm : min (((k + 1 : Nat) : Int)) n = min ((k : Int)) n := by
      push_cast
      omega
    rw [hm]
  · intro k hk j hj
    obtain ⟨_, hst⟩ := run_limited_from_fresh tag msg level n hn k st hv hl hfresh hk
    have hres : reset_limited (run_limited tag n level msg st k).2 tag
        = { st with limited := updMap st.limited tag (LimitedControl.mk n 0) } := by
      rw [hst]
      show (match lookupS tag (updMap st.limited tag (LimitedControl.mk n (min ((k : Int)) n))) with
        | none => ({ st with limited := updMap st.limited tag (LimitedControl.mk n (min ((k : Int)) n)) } : LoggerState)
        | some c => { st with limited := updMap (updMap st.limited tag (LimitedControl.mk n (min ((k : Int)) n))) tag (LimitedControl.mk c.allowed 0) }) = _
      rw [lookupS_updMap_self]
      show ({ st with limited := updMap (updMap st.limited tag (LimitedControl.mk n (min ((k : Int)) n))) tag (LimitedControl.mk n 0) } : LoggerState) = _
      rw [updMap_updMap]
    rw [hres]
    have hlook : lookupS tag ({ st with limited := updMap st.limited tag (LimitedControl.mk n 0) } : LoggerState).limited
        = some (LimitedControl.mk n 0) := lookupS_updMap_self _ _ _
    obtain ⟨hout, _⟩ := run_limited_from_count tag msg level n n.toNat
      { st with limited := updMap st.limited tag (LimitedControl.mk n 0) } 0 hv hl hlook (by omega) (by omega)
    have hjk : j < n.toNat := by omega
    rw [hout, List.get?_map, List.get?_range hjk]
    show some (expOut n msg (min ((0 : Int) + (j : Int)) n)) = _
    rw [zero_add, expOut_min_eq n msg (j : Int) (by omega), if_pos hj]

theorem log_limited_quota_cycle_witness :
    (run_limited "t" 2 LogLevel.info "m" ⟨true, LogLevel.info, []⟩ 3).1.get? 1
      = some (some (if ((1 : Nat) : Int) = 2 - 1 then "m" ++ suppressSuffix else "m")) :=
  (log_limited_quota_cycle "t" "m" LogLevel.info 2 ⟨true, LogLevel.info, []⟩
    (by decide) rfl (by decide) rfl).1 3 1 (by decide)

/-- C6 (counterexample).  The claim says a `log_limited` call rejected by
the level filter leaves the tag's counter unchanged.  On a valid logger
whose `min_level_` is `Info`, a `Debug`-level `log_limited` with quota 1
on a fresh tag emits nothing, yet it creates the tag's entry and consumes
the whole quota: a following `Info`-level call (which the filter admits)
also emits nothing. -/
theorem level_filtered_consumes_quota_counterexample :
    (log_limited ⟨true, LogLevel.info, []⟩ "t" 1 LogLevel.debug "m").1 = none
    ∧ (log_limited ⟨true, LogLevel.info, []⟩ "t" 1 LogLevel.debug "m").2.limited
        = [("t", LimitedControl.mk 1 1)]
    ∧ (log_limited ((log_limited ⟨true, LogLevel.info, []⟩ "t" 1 LogLevel.debug "m").2)
        "t" 1 LogLevel.info "m").1 = none := by
  decide

/-- C6 (amended).  A `log_limited` call rejected by the logger's level
filter (or issued on an invalid logger) emits nothing, but the per-tag
counter is still created and updated exactly as for an admitted call:
`limited_allowed_left` runs first, so `allowed` is overwritten with the
call's quota and `consumed` increments whenever it is below the quota —
a level-filtered call does use up the tag's quota. -/
theorem log_limited_filtered_still_counts (st : LoggerState) (tag : String)
    (n : Int) (level : LogLevel) (msg : String)
    (hrej : ¬(st.valid = true ∧ st.minLevel.toNat ≤ level.toNat)) :
    (log_limited st tag n level msg).1 = none
    ∧ lookupS tag (log_limited st tag n level msg).2.limited
        = some (LimitedControl.mk n
            (if ((lookupS tag st.limited).getD (LimitedControl.mk n 0)).count < n
             then ((lookupS tag st.limited).getD (LimitedControl.mk n 0)).count + 1
             else ((lookupS tag st.limited).getD (LimitedControl.mk n 0)).count)) := by
  have hout : (log_limited st tag n level msg).1 = none := by
    simp only [log_limited]
    rw [if_neg (by
      intro hcon
      exact hrej ⟨hcon.1, hcon.2.1⟩)]
  refine ⟨hout, ?_⟩
  have hst : (log_limited st tag n level msg).2 = (limited_allowed_left st tag n).2 := by
    simp only [log_limited]
    by_cases hcond : st.valid = true ∧ st.minLevel.toNat ≤ level.toNat
      ∧ 0 < (limited_allowed_left st tag n).1
    · rw [if_pos hcond]
    · rw [if_neg hcond]
  rw [hst]
  cases hlk : lookupS tag st.limited with
  | none =>
    have h0 := limited_allowed_left_fresh st tag n hlk
    rw [h0]
    show lookupS tag (updMap st.limited tag (LimitedControl.mk n (if 0 < n then 1 else 0))) = _
    rw [lookupS_updMap_self]
    simp
  | some c =>
    cases c with
    | mk a cnt =>
      have h0 := limited_allowed_left_some st tag n a cnt hlk
      rw [h0]
      show lookupS tag (updMap st.limited tag (LimitedControl.mk n (if cnt < n then cnt + 1 else cnt))) = _
      rw [lookupS_updMap_self]
      simp

theorem log_limited_filtered_still_counts_witness :
    ¬((true : Bool) = true ∧ LogLevel.info.toNat ≤ LogLevel.debug.toNat)
    ∧ (log_limited ⟨true, LogLevel.info, []⟩ "t" 1 LogLevel.debug "m").1 = none :=
  ⟨by decide,
    (log_limited_filtered_still_counts ⟨true, LogLevel.info, []⟩ "t" 1 LogLevel.debug "m"
      (by decide)).1⟩

/-! ## Registry rule engine: `detail::LoggerRegistry::set_logger_level_rule`,
`get_logger_level_rule`, `apply_rules_to_existing_loggers`
(`src/slog_logger.cpp`)

`std::map<std::string, LogLevel> level_rules_` (exact rules) and the
`registry_` of loggers are modelled as association lists with keyed
overwrite; `std::vector<std::tuple<std::string, std::regex, LogLevel>>
regex_level_rules_` keeps insertion order.  Compiled `std::regex` objects
are modelled as abstract matchers `String → Bool` supplied alongside the
pattern text (`std::regex_match` of the converted pattern); regex
compilation failure (which demotes a rule to an exact entry) is not
modelled.  A registered logger is represented by its name and the rule
level last applied to it through `Logger::set_rule_level`. -/

/-- One stored pattern rule: original text, compiled matcher, level. -/
structure PatternRule where
  pattern : String
  matcher : String → Bool
  level : LogLevel

structure Registry where
  level_rules : List (String × LogLevel)
  regex_level_rules : List PatternRule
  loggers : List (String × LogLevel)

/-- The character classes scanned by `set_logger_level_rule`:
regex metacharacters (the loop breaks at the first one). -/
def isRegexSpecialChar (c : Char) : Bool :=
  c = '.' || c = '+' || c = '^' || c = '$' || c = '[' || c = ']' ||
  c = '(' || c = ')' || c = '{' || c = '}' || c = '|' || c = '\\'

/-- The classification scan of `set_logger_level_rule`: walk the pattern,
record a wildcard (`*`/`?`) when seen, and stop at the first regex
metacharacter.  Returns `(has_wildcard, has_regex_special)`. -/
def scanPattern : List Char → Bool × Bool
  | [] => (false, false)
  | c :: rest =>
    let w := c = '*' || c = '?'
    if isRegexSpecialChar c then (w, true)
    else
      let r := scanPattern rest
      (w || r.1, r.2)

/-- `has_wildcard || has_regex_special`: the rule is stored as a pattern
(regex) rule rather than an exact entry. -/
def patternIsRegex (p : String) : Bool :=
  let r := scanPattern p.toList
  r.1 || r.2

/-- The loop body of `apply_rules_to_existing_loggers`: every registered
logger accepted by `cond` has the new rule's level applied to it via
`Logger::set_rule_level`. -/
def apply_rules_to_existing_loggers (loggers : List (String × LogLevel))
    (cond : String → Bool) (level : LogLevel) : List (String × LogLevel) :=
  loggers.map (fun nl => if cond nl.1 then (nl.1, level) else nl)

/-- `set_logger_level_rule`: reject the empty pattern; classify; store a
pattern rule at the end of the ordered list or overwrite the exact table
entry; then immediately apply the new rule's level to every registered
logger matching the new pattern (regex match for pattern rules, string
equality for exact rules).  `matcher` models the compiled `std::regex` of
the (possibly wildcard-converted) pattern text. -/
def set_logger_level_rule (reg : Registry) (pattern : String)
    (matcher : String → Bool) (level : LogLevel) : Registry :=
  if pattern = "" then reg
  else if patternIsRegex pattern then
    { reg with
      regex_level_rules := reg.regex_level_rules ++ [⟨pattern, matcher, level⟩],
      loggers := apply_rules_to_existing_loggers reg.loggers matcher level }
  else
    { reg with
      level_rules := updMap reg.level_rules pattern level,
      loggers := apply_rules_to_existing_loggers reg.loggers (fun s => s == pattern) level }

/-- `get_logger_level_rule`: exact table lookup first; else the first
pattern rule in insertion order whose matcher accepts the name; else the
`Unknown` sentinel. -/
def get_logger_level_rule (reg : Registry) (name : String) : LogLevel :=
  match lookupS name reg.level_rules with
  | some l => l
  | none =>
    match reg.regex_level_rules.find? (fun r => r.matcher name) with
    | some r => r.level
    | none => LogLevel.unknown

/-- Whether `set_logger_level_rule pattern matcher _` applies to the
registered logger `name`: matcher acceptance for pattern rules, string
equality for exact rules. -/
def ruleMatches (pattern : String) (matcher : String → Bool) (name : String) : Bool :=
  if patternIsRegex pattern then matcher name else name == pattern

theorem lookupS_cons {α : Type} (k : String) (v : α) (t : List (String × α)) (name : String) :
    lookupS name ((k, v) :: t) = if k = name then some v else lookupS name t := rfl

theorem lookupS_apply_rules (loggers : List (String × LogLevel))
    (cond : String → Bool) (level : LogLevel) (name : String) :
    lookupS name (apply_rules_to_existing_loggers loggers cond level)
      = (lookupS name loggers).map (fun old => if cond name then level else old) := by
  induction loggers with
  | nil => rfl
  | cons hd t ih =>
    obtain ⟨k, v⟩ := hd
    have hmap : apply_rules_to_existing_loggers ((k, v) :: t) cond level
        = (if cond k then (k, level) else (k, v)) :: apply_rules_to_existing_loggers t cond level := rfl
    rw [hmap]
    by_cases hcond : cond k
    · rw [if_pos hcond, lookupS_cons, lookupS_cons]
      by_cases hk : k = name
      · subst hk
        rw [if_pos rfl, if_pos rfl]
        show some level = some (if cond k then level else v)
        rw [if_pos hcond]
      · rw [if_neg hk, if_neg hk, ih]
    · rw [if_neg hcond, lookupS_cons, lookupS_cons]
      by_cases hk : k = name
      · subst hk
        rw [if_pos rfl, if_pos rfl]
        show some v = some (if cond k then level else v)
        rw [if_neg hcond]
      · rw [if_neg hk, if_neg hk, ih]

/-- C1 (counterexample).  The claim says the level applied to an existing
logger on rule insertion is resolved against the full rule table with
exact-over-pattern precedence.  Concretely: logger "a" is registered; the
exact rule "a" → Debug is set (logger "a" gets Debug); then the pattern
rule ".*" → Trace is set (its compiled regex matches every name).  Full
table resolution for "a" still yields Debug (exact beats pattern), but
the code overwrites logger "a" with the new pattern rule's own level
Trace. -/
theorem set_rule_retroactive_counterexample :
    lookupS "a" (set_logger_level_rule
      (set_logger_level_rule ⟨[], [], [("a", LogLevel.unknown)]⟩ "a" (fun s => s == "a") LogLevel.debug)
      ".*" (fun _ => true) LogLevel.trace).loggers = some LogLevel.trace
    ∧ get_logger_level_rule (set_logger_level_rule
      (set_logger_level_rule ⟨[], [], [("a", LogLevel.unknown)]⟩ "a" (fun s => s == "a") LogLevel.debug)
      ".*" (fun _ => true) LogLevel.trace) "a" = LogLevel.debug
    ∧ LogLevel.trace ≠ LogLevel.debug := by
  refine ⟨rfl, rfl, by decide⟩

/-- C1 (amended).  Immediately after a rule is inserted by
`set_logger_level_rule` (non-empty pattern), every already-registered
logger whose name matches the new pattern gets exactly the new rule's own
level — no resolution against the full rule table happens, so a
later-added pattern rule overrides the level of a logger that an exact
rule had set — and loggers not matching the new pattern keep their
previous level. -/
theorem set_rule_applies_own_level (reg : Registry) (pattern : String)
    (matcher : String → Bool) (level : LogLevel) (hp : pattern ≠ "") :
    (∀ name l, ruleMatches pattern matcher name = true →
      lookupS name (set_logger_level_rule reg pattern matcher level).loggers = some l →
      l = level)
    ∧ (∀ name, ruleMatches pattern matcher name = false →
        lookupS name (set_logger_level_rule reg pattern matcher level).loggers
          = lookupS name reg.loggers) := by
  constructor
  · intro name l hm hl
    by_cases hreg : patternIsRegex pattern = true
    · have hm2 : matcher name = true := by
        unfold ruleMatches at hm
        rwa [if_pos hreg] at hm
      rw [set_logger_level_rule, if_neg hp, if_pos hreg] at hl
      rw [show ({ reg with
          regex_level_rules := reg.regex_level_rules ++ [⟨pattern, matcher, level⟩],
          loggers := apply_rules_to_existing_loggers reg.loggers matcher level } : Registry).loggers
          = apply_rules_to_existing_loggers reg.loggers matcher level from rfl,
        lookupS_apply_rules, hm2] at hl
      cases hold : lookupS name reg.loggers with
      | none => rw [hold] at hl; simp at hl
      | some old =>
        rw [hold] at hl
        simp at hl
        exact hl.symm
    · have hreg2 : patternIsRegex pattern = false := by
        cases h : patternIsRegex pattern
        · rfl
        · exact absurd h hreg
      have hm2 : (name == pattern) = true := by
        unfold ruleMatches at hm
        rwa [if_neg (by simp [hreg2])] at hm
      rw [set_logger_level_rule, if_neg hp, if_neg (by simp [hreg2])] at hl
      rw [show ({ reg with
          level_rules := updMap reg.level_rules pattern level,
          loggers := apply_rules_to_existing_loggers reg.loggers (fun s => s == pattern) level } : Registry).loggers
          = apply_rules_to_existing_loggers reg.loggers (fun s => s == pattern) level from rfl,
        lookupS_apply_rules, hm2] at hl
      cases hold : lookupS name reg.loggers with
      | none => rw [hold] at hl; simp at hl
      | some old =>
        rw [hold] at hl
        simp at hl
        exact hl.symm
  · intro name hm
    by_cases hreg : patternIsRegex pattern = true
    · have hm2 : matcher name = false := by
        unfold ruleMatches at hm
        rwa [if_pos hreg] at hm
      rw [set_logger_level_rule, if_neg hp, if_pos hreg]
      rw [show ({ reg with
          regex_level_rules := reg.regex_level_rules ++ [⟨pattern, matcher, level⟩],
          loggers := apply_rules_to_existing_loggers reg.loggers matcher level } : Registry).loggers
          = apply_rules_to_existing_loggers reg.loggers matcher level from rfl,
        lookupS_apply_rules, hm2]
      cases lookupS name reg.loggers <;> rfl
    · have hreg2 : patternIsRegex pattern = false := by
        cases h : patternIsRegex pattern
        · rfl
        · exact absurd h hreg
      have hm2 : (name == pattern) = false := by
        unfold ruleMatches at hm
        rwa [if_neg (by simp [hreg2])] at hm
      rw [set_logger_level_rule, if_neg hp, if_neg (by simp [hreg2])]
      rw [show ({ reg with
          level_rules := updMap reg.level_rules pattern level,
          loggers := apply_rules_to_existing_loggers reg.loggers (fun s => s == pattern) level } : Registry).loggers
          = apply_rules_to_existing_loggers reg.loggers (fun s => s == pattern) level from rfl,
        lookupS_apply_rules, hm2]
      cases lookupS name reg.loggers <;> rfl

theorem set_rule_applies_own_level_witness :
    (".*" : String) ≠ ""
    ∧ lookupS "a" (set_logger_level_rule ⟨[], [], [("a", LogLevel.debug)]⟩ ".*" (fun _ => true) LogLevel.trace).loggers = some LogLevel.trace
    ∧ LogLevel.trace = LogLevel.trace :=
  ⟨by decide,
    by decide,
    (set_rule_applies_own_level ⟨[], [], [("a", LogLevel.debug)]⟩ ".*" (fun _ => true) LogLevel.trace
      (by decide)).1 "a" LogLevel.trace rfl (by decide)⟩

theorem find?_first_match (name : String) :
    ∀ (ps1 : List PatternRule) (r : PatternRule) (ps2 : List PatternRule),
      (∀ q ∈ ps1, q.matcher name = false) → r.matcher name = true →
      (ps1 ++ r :: ps2).find? (fun q => q.matcher name) = some r := by
  intro ps1
  induction ps1 with
  | nil =>
    intro r ps2 _ hhit
    simp only [List.nil_append, List.find?]
    rw [hhit]
  | cons q qs ih =>
    intro r ps2 hskip hhit
    have hq : q.matcher name = false := hskip q (by simp)
    simp only [List.cons_append, List.find?]
    rw [hq]
    exact ih r ps2 (fun p hp => hskip p (by simp [hp])) hhit

/-- C7.  `get_logger_level_rule` precedence: an exact table entry always
wins; otherwise the first pattern rule in insertion order whose matcher
accepts the full name decides; otherwise the `Unknown` sentinel is
returned. -/
theorem get_rule_precedence (reg : Registry) (name : String) :
    (∀ l, lookupS name reg.level_rules = some l → get_logger_level_rule reg name = l)
    ∧ (lookupS name reg.level_rules = none →
        ∀ ps1 r ps2, reg.regex_level_rules = ps1 ++ r :: ps2 →
          (∀ q ∈ ps1, q.matcher name = false) → r.matcher name = true →
          get_logger_level_rule reg name = r.level)
    ∧ (lookupS name reg.level_rules = none →
        (∀ q ∈ reg.regex_level_rules, q.matcher name = false) →
        get_logger_level_rule reg name = LogLevel.unknown) := by
  refine ⟨?_, ?_, ?_⟩
  · intro l hl
    unfold get_logger_level_rule
    rw [hl]
  · intro hnone ps1 r ps2 hsplit hskip hhit
    unfold get_logger_level_rule
    rw [hnone, hsplit]
    rw [find?_first_match name ps1 r ps2 hskip hhit]
  · intro hnone hmiss
    unfold get_logger_level_rule
    rw [hnone]
    have hfind : reg.regex_level_rules.find? (fun q => q.matcher name) = none := by
      rw [List.find?_eq_none]
      intro q hq
      simp [hmiss q hq]
    rw [hfind]

theorem get_rule_precedence_witness :
    lookupS "x" ([("x", LogLevel.debug)] : List (String × LogLevel)) = some LogLevel.debug
    ∧ get_logger_level_rule ⟨[("x", LogLevel.debug)], [⟨".*", fun _ => true, LogLevel.trace⟩], []⟩ "x" = LogLevel.debug :=
  ⟨by decide,
    (get_rule_precedence ⟨[("x", LogLevel.debug)], [⟨".*", fun _ => true, LogLevel.trace⟩], []⟩ "x").1
      LogLevel.debug (by decide)⟩

/-! ## Sinks and logger dispatch: `Logger::update_filter_level`,
`Logger::get_level`, `Logger::log` (`src/slog_logger.cpp`),
`Stdout::log` / `File::log` level checks (`src/sink_stdout.cpp`,
`src/sink_file.cpp`), `clone` of each sink variant
(`src/sink_stdout.cpp`, `src/sink_file.cpp`, `src/sink_none.hpp`),
and the `Logger` constructors. -/

/-- A sink as the logger sees it: its configured level and whether its
`setup` succeeds (`Stdout::setup` and `None::setup` always return true;
`File::setup` can fail). -/
structure MSink where
  level : LogLevel
  setupOk : Bool
  deriving DecidableEq, Repr

/-- The default sink installed by the `Logger` constructors when handed a
null pointer or an empty sink list: `sink::Stdout(LogLevel::Info)`, whose
`setup` always succeeds. -/
def stdoutDefault : MSink := ⟨LogLevel.info, true⟩

/-- The part of a `Logger` that dispatch touches: validity and the owned
sinks.  The cached `min_level_` recomputed by `update_filter_level` is
the derived `min_level` below. -/
structure CLogger where
  name : String
  valid : Bool
  sinks : List MSink
  deriving DecidableEq, Repr

/-- `Logger::update_filter_level`'s minimum: fold over the sinks starting
from `Off`, keeping each sink level that is numerically smaller. -/
def min_level (sinks : List MSink) : LogLevel :=
  sinks.foldl (fun m s => if s.level.toNat < m.toNat then s.level else m) LogLevel.off

/-- `Logger::update_filter_level`'s maximum: fold over the sinks starting
from `Trace`, keeping each sink level that is numerically larger. -/
def max_level (sinks : List MSink) : LogLevel :=
  sinks.foldl (fun m s => if m.toNat < s.level.toNat then s.level else m) LogLevel.trace

/-- `Logger::get_level`: `Off` when the sink list is empty, the cached
minimum otherwise. -/
def get_level (lg : CLogger) : LogLevel :=
  if lg.sinks = [] then LogLevel.off else min_level lg.sinks

/-- The level check at the top of `Stdout::log` and `File::log`: the sink
outputs only when the call's level is not below the sink's own level. -/
def sink_accepts (s : MSink) (level : LogLevel) : Bool :=
  decide (s.level.toNat ≤ level.toNat)

/-- `Logger::log`: return immediately when the logger is invalid or the
level is below the cached minimum; otherwise forward to every owned sink,
each sink independently re-checking its own level.  The result records,
for each sink in order, whether that sink actually output the message. -/
def logger_log (lg : CLogger) (level : LogLevel) : List Bool :=
  if lg.valid = true ∧ (min_level lg.sinks).toNat ≤ level.toNat then
    lg.sinks.map (fun s => sink_accepts s level)
  else
    lg.sinks.map (fun _ => false)

theorem min_level_le (sinks : List MSink) :
    ∀ (seed : LogLevel),
      (sinks.foldl (fun m s => if s.level.toNat < m.toNat then s.level else m) seed).toNat ≤ seed.toNat
      ∧ ∀ s ∈ sinks,
        (sinks.foldl (fun m s => if s.level.toNat < m.toNat then s.level else m) seed).toNat ≤ s.level.toNat := by
  induction sinks with
  | nil =>
    intro seed
    exact ⟨le_refl _, by simp⟩
  | cons hd t ih =>
    intro seed
    by_cases hc : hd.level.toNat < seed.toNat
    · have hstep : (hd :: t).foldl (fun m s => if s.level.toNat < m.toNat then s.level else m) seed
          = t.foldl (fun m s => if s.level.toNat < m.toNat then s.level else m) hd.level := by
        simp [List.foldl_cons, if_pos hc]
      obtain ⟨ihseed, ihmem⟩ := ih hd.level
      rw [hstep]
      refine ⟨by omega, ?_⟩
      intro s hs
      rcases List.mem_cons.mp hs with hs | hs
      · subst hs; exact ihseed
      · exact ihmem s hs
    · have hstep : (hd :: t).foldl (fun m s => if s.level.toNat < m.toNat then s.level else m) seed
          = t.foldl (fun m s => if s.level.toNat < m.toNat then s.level else m) seed := by
        simp [List.foldl_cons, if_neg hc]
      obtain ⟨ihseed, ihmem⟩ := ih seed
      rw [hstep]
      refine ⟨ihseed, ?_⟩
      intro s hs
      rcases List.mem_cons.mp hs with hs | hs
      · subst hs; omega
      · exact ihmem s hs

theorem min_level_mem (sinks : List MSink) :
    ∀ (seed : LogLevel),
      sinks.foldl (fun m s => if s.level.toNat < m.toNat then s.level else m) seed = seed
      ∨ (sinks.foldl (fun m s => if s.level.toNat < m.toNat then s.level else m) seed)
          ∈ sinks.map MSink.level := by
  induction sinks with
  | nil => intro seed; exact Or.inl rfl
  | cons hd t ih =>
    intro seed
    by_cases hc : hd.level.toNat < seed.toNat
    · have hstep : (hd :: t).foldl (fun m s => if s.level.toNat < m.toNat then s.level else m) seed
          = t.foldl (fun m s => if s.level.toNat < m.toNat then s.level else m) hd.level := by
        simp [List.foldl_cons, if_pos hc]
      rw [hstep]
      rcases ih hd.level with h | h
      · exact Or.inr (by rw [h]; simp)
      · exact Or.inr (by simp [h])
    · have hstep : (hd :: t).foldl (fun m s => if s.level.toNat < m.toNat then s.level else m) seed
          = t.foldl (fun m s => if s.level.toNat < m.toNat then s.level else m) seed := by
        simp [List.foldl_cons, if_neg hc]
      rw [hstep]
      rcases ih seed with h | h
      · exact Or.inl h
      · exact Or.inr (by simp [h])

/-- C8.  Min-level aggregation and dispatch: for a logger owning a
non-empty sink list (no sink sitting at the `Unknown` sentinel),
`get_level` is the minimum of the owned sinks' levels (it is one of them
and is below all of them); a call below that minimum reaches no sink; a
call at or above it on a valid logger is forwarded to every sink, and
each sink outputs exactly when its own level admits the call. -/
theorem min_level_aggregation (lg : CLogger) (hne : lg.sinks ≠ [])
    (hnu : ∀ s ∈ lg.sinks, s.level.toNat ≤ LogLevel.off.toNat) :
    (get_level lg ∈ lg.sinks.map MSink.level
      ∧ ∀ s ∈ lg.sinks, (get_level lg).toNat ≤ s.level.toNat)
    ∧ (∀ level : LogLevel, level.toNat < (get_level lg).toNat →
        logger_log lg level = lg.sinks.map (fun _ => false))
    ∧ (∀ level : LogLevel, lg.valid = true → (get_level lg).toNat ≤ level.toNat →
        logger_log lg level = lg.sinks.map (fun s => decide (s.level.toNat ≤ level.toNat))) := by
  have hget : get_level lg = min_level lg.sinks := by
    unfold get_level
    rw [if_neg hne]
  obtain ⟨hseed, hmem⟩ := min_level_le lg.sinks LogLevel.off
  refine ⟨⟨?_, ?_⟩, ?_, ?_⟩
  · rcases min_level_mem lg.sinks LogLevel.off with h | h
    · obtain ⟨s0, hs0⟩ := List.exists_mem_of_ne_nil lg.sinks hne
      have h1 : (min_level lg.sinks).toNat ≤ s0.level.toNat := hmem s0 hs0
      have h2 : s0.level.toNat ≤ LogLevel.off.toNat := hnu s0 hs0
      have h3 : min_level lg.sinks = LogLevel.off := h
      have h4 : s0.level = LogLevel.off := by
        apply LogLevel.toNat_inj
        rw [h3] at h1
        omega
      rw [hget, h3, ← h4]
      exact List.mem_map_of_mem MSink.level hs0
    · rw [hget]; exact h
  · intro s hs
    rw [hget]
    exact hmem s hs
  · intro level hlt
    unfold logger_log
    rw [if_neg (by
      intro hcon
      rw [hget] at hlt
      omega)]
  · intro level hv hle
    unfold logger_log
    rw [if_pos ⟨hv, by rw [hget] at hle; omega⟩]
    rfl

theorem min_level_aggregation_witness :
    get_level ⟨"L", true, [⟨LogLevel.info, true⟩, ⟨LogLevel.debug, true⟩]⟩ ∈
        ([⟨LogLevel.info, true⟩, ⟨LogLevel.debug, true⟩] : List MSink).map MSink.level
    ∧ logger_log ⟨"L", true, [⟨LogLevel.info, true⟩, ⟨LogLevel.debug, true⟩]⟩ LogLevel.trace
        = [false, false]
    ∧ logger_log ⟨"L", true, [⟨LogLevel.info, true⟩, ⟨LogLevel.debug, true⟩]⟩ LogLevel.debug
        = [false, true] :=
  ⟨(min_level_aggregation ⟨"L", true, [⟨LogLevel.info, true⟩, ⟨LogLevel.debug, true⟩]⟩
      (by decide) (by decide)).1.1,
    by
      rw [(min_level_aggregation ⟨"L", true, [⟨LogLevel.info, true⟩, ⟨LogLevel.debug, true⟩]⟩
        (by decide) (by decide)).2.1 LogLevel.trace (by decide)]
      decide,
    by
      rw [(min_level_aggregation ⟨"L", true, [⟨LogLevel.info, true⟩, ⟨LogLevel.debug, true⟩]⟩
        (by decide) (by decide)).2.2 LogLevel.debug rfl (by decide)]
      decide⟩

/-! ## Sink `clone` variants (C9) -/

/-- The identity a sink carries for cloning purposes: the logger name
assigned by `setup` and the configured level. -/
structure SinkId where
  name : String
  level : LogLevel
  deriving DecidableEq, Repr

/-- `Stdout::clone` (`src/sink_stdout.cpp`): returns no sink when the
requested name equals the sink's current name; otherwise a fresh
`Stdout` with the same level, set up under the new name. -/
def stdout_clone (s : SinkId) (logger_name : String) : Option SinkId :=
  if logger_name = s.name then none else some ⟨logger_name, s.level⟩

/-- `File::clone` (`src/sink_file.cpp`): same name check as `Stdout`. -/
def file_clone (s : SinkId) (logger_name : String) : Option SinkId :=
  if logger_name = s.name then none else some ⟨logger_name, s.level⟩

/-- `None::clone` (`src/sink_none.hpp`): unconditionally returns a fresh
`None` sink with the same level set up under the requested name — there
is no name comparison in the source. -/
def none_clone (s : SinkId) (logger_name : String) : Option SinkId :=
  some ⟨logger_name, s.level⟩

/-- `Logger::clone` self-name check (`src/slog_logger.cpp`): a clone
request under the logger's own name immediately falls back to the
default logger, before any sink is consulted. -/
def logger_clone_falls_back_to_default (lg : CLogger) (logger_name : String) : Bool :=
  logger_name == lg.name

/-- C9 (failing input).  `None::clone` called with the sink's own
assigned name still returns a sink, while `Stdout::clone` and
`File::clone` return none, and `Logger::clone` under the logger's own
name falls back to the default logger.  The claim (and the
`LoggerSink::clone` contract documented in `slog.hpp`) requires the
`None` variant to return no sink as well, so the code diverges from its
own interface documentation at this input. -/
theorem none_clone_self_returns_sink :
    none_clone ⟨"x", LogLevel.off⟩ "x" = some ⟨"x", LogLevel.off⟩
    ∧ stdout_clone ⟨"x", LogLevel.info⟩ "x" = none
    ∧ file_clone ⟨"x", LogLevel.info⟩ "x" = none
    ∧ logger_clone_falls_back_to_default ⟨"x", true, []⟩ "x" = true := by
  decide

/-! ## Logger constructors (C10) -/

/-- The single-sink `Logger` constructor: a null sink pointer is replaced
by a default `Stdout(Info)` sink; `setup` runs on every owned sink and
the logger becomes valid only when none fails. -/
def logger_ctor_single (name : String) (sink : Option MSink) : CLogger :=
  let s := match sink with
    | none => stdoutDefault
    | some s => s
  if [s].all MSink.setupOk then ⟨name, true, [s]⟩ else ⟨name, false, [s]⟩

/-- The multi-sink `Logger` constructor: an empty sink list is replaced
by a single default `Stdout(Info)` sink; `setup` runs on every owned sink
and the logger becomes valid only when none fails. -/
def logger_ctor_multi (name : String) (sinks : List MSink) : CLogger :=
  let sinks2 := if sinks = [] then [stdoutDefault] else sinks
  if sinks2.all MSink.setupOk then ⟨name, true, sinks2⟩ else ⟨name, false, sinks2⟩

/-- C10.  A `Logger` constructed with a null sink pointer or an empty
sink list does not fail: it installs one default `Stdout` sink at `Info`
(whose `setup` always succeeds), becomes valid, and reports
`get_level() = Info`. -/
theorem default_sink_install (name : String) :
    (logger_ctor_single name none).valid = true
    ∧ get_level (logger_ctor_single name none) = LogLevel.info
    ∧ (logger_ctor_multi name []).valid = true
    ∧ get_level (logger_ctor_multi name []) = LogLevel.info := by
  refine ⟨rfl, ?_, rfl, ?_⟩ <;> rfl

end Slog
